import Mathlib

/-!
# Verification of the Replit DB Rust client (`src/sync_client.rs`, `src/async_client.rs`)

A shallow embedding of the two HTTP key-value clients.  Strings are
modelled as lists of bytes (`List Nat`, each `< 256`), because the
percent-codec of the `urlencoding` crate the clients use operates on the
UTF-8 bytes of Rust strings, and its only failure mode is a decoded byte
sequence that is not valid UTF-8.

The network is modelled as an oracle `net : Request → HttpResult` giving,
for each request the client builds, either a transport error or an HTTP
response (status code plus body text).  Both clients (sync and async)
contain byte-for-byte identical response handling for `get`, `delete`,
`list_prefix`, `empty` and `get_all`, so a single embedding of each
operation covers both; the one divergence, the body of `set`, is embedded
twice (`syncSetBody`, `asyncSetBody`).
-/

/-- UTF-8 bytes of an ASCII string literal (all our concrete literals are
ASCII, where code points and bytes coincide). -/
def bytesOfAscii (s : String) : List Nat :=
  s.data.map Char.toNat

/-- Decidable equality for results, so that witnesses can be checked by
evaluation. -/
instance {e a : Type} [DecidableEq e] [DecidableEq a] :
    DecidableEq (Except e a) := fun x y =>
  match x, y with
  | .ok u, .ok v =>
    if h : u = v then isTrue (by rw [h])
    else isFalse (by intro hc; injection hc; contradiction)
  | .error u, .error v =>
    if h : u = v then isTrue (by rw [h])
    else isFalse (by intro hc; injection hc; contradiction)
  | .ok _, .error _ => isFalse (by intro hc; injection hc)
  | .error _, .ok _ => isFalse (by intro hc; injection hc)

/-! ## The percent codec (`urlencoding` crate, used by both clients)

`urlencoding::encode` percent-escapes every byte that is not an ASCII
alphanumeric or one of `-`, `_`, `.`, `~`, using uppercase hex digits.
`urlencoding::decode` first unescapes `%XX` pairs (a `%` not followed by
two hex digits is passed through literally) and then validates that the
resulting bytes are UTF-8, failing with a `FromUtf8Error` otherwise; when
the input contains no `%` at all it is returned unchanged with no
validation. -/

/-- Bytes `urlencoding::encode` leaves unescaped: ASCII alphanumerics and
`-` `_` `.` `~`. -/
def isUnreservedByte (b : Nat) : Bool :=
  (48 ≤ b && b ≤ 57) || (65 ≤ b && b ≤ 90) || (97 ≤ b && b ≤ 122) ||
    b == 45 || b == 95 || b == 46 || b == 126

/-- Uppercase hex digit for a nibble, as `urlencoding::encode` emits. -/
def toHexDigit (n : Nat) : Nat :=
  if n < 10 then 48 + n else 55 + n

/-- Value of an ASCII hex digit (`0-9`, `A-F`, `a-f`), as accepted by
`urlencoding`'s `from_hex_digit`. -/
def fromHexDigit (c : Nat) : Option Nat :=
  if 48 ≤ c && c ≤ 57 then some (c - 48)
  else if 65 ≤ c && c ≤ 70 then some (c - 55)
  else if 97 ≤ c && c ≤ 102 then some (c - 87)
  else none

/-- Percent-encoding of one byte (`37` is `%`). -/
def encodeByte (b : Nat) : List Nat :=
  if isUnreservedByte b then [b]
  else [37, toHexDigit (b / 16 % 16), toHexDigit (b % 16)]

/-- Model of `urlencoding::encode` over the bytes of a string. -/
def urlencode (s : List Nat) : List Nat :=
  s.flatMap encodeByte

/-- The unescaping pass of `urlencoding::decode_binary`: a `%` followed by
two hex digits becomes the denoted byte; otherwise the `%` is kept
literally and scanning resumes right after it. -/
def decodeBinaryGo : Nat → List Nat → List Nat
  | _, [] => []
  | 0, s => s
  | fuel + 1, c :: rest =>
    if c = 37 then
      match rest with
      | a :: b :: rest' =>
        match fromHexDigit a, fromHexDigit b with
        | some x, some y => (x * 16 + y) :: decodeBinaryGo fuel rest'
        | _, _ => 37 :: decodeBinaryGo fuel rest
      | _ => 37 :: decodeBinaryGo fuel rest
    else c :: decodeBinaryGo fuel rest

/-- The crate's scanning loop runs at most one iteration per input byte
(each iteration consumes one or three bytes), so fuel equal to the input
length always suffices; `decodeBinaryGo` spends one fuel per iteration
and can only hit its fuel-exhaustion arm on inputs longer than the fuel,
which `decodeBinary` never supplies. -/
def decodeBinary (s : List Nat) : List Nat :=
  decodeBinaryGo s.length s

/-- A UTF-8 continuation byte, `0x80`–`0xBF`. -/
def contByte (b : Nat) : Bool :=
  128 ≤ b && b ≤ 191

/-- UTF-8 validation as in Rust's `String::from_utf8`: `none` when the
byte list is well-formed UTF-8, otherwise `some (validUpTo, errorLen)`
describing the first ill-formed sequence — `errorLen = none` means the
input ended inside a sequence (an incomplete tail), `some n` that the `n`
bytes starting at index `validUpTo` are the maximal ill-formed subpart. -/
def utf8Check : List Nat → Nat → Option (Nat × Option Nat)
  | [], _ => none
  | b :: rest, i =>
    if b ≤ 127 then utf8Check rest (i + 1)
    else if 194 ≤ b && b ≤ 223 then
      match rest with
      | [] => some (i, none)
      | c :: rest' =>
        if contByte c then utf8Check rest' (i + 2) else some (i, some 1)
    else if 224 ≤ b && b ≤ 239 then
      -- three-byte sequences; E0 excludes overlongs, ED excludes surrogates
      let lo2 := if b == 224 then 160 else 128
      let hi2 := if b == 237 then 159 else 191
      match rest with
      | [] => some (i, none)
      | c :: rest' =>
        if lo2 ≤ c && c ≤ hi2 then
          match rest' with
          | [] => some (i, none)
          | d :: rest'' =>
            if contByte d then utf8Check rest'' (i + 3) else some (i, some 2)
        else some (i, some 1)
    else if 240 ≤ b && b ≤ 244 then
      -- four-byte sequences; F0 excludes overlongs, F4 caps at U+10FFFF
      let lo2 := if b == 240 then 144 else 128
      let hi2 := if b == 244 then 143 else 191
      match rest with
      | [] => some (i, none)
      | c :: rest' =>
        if lo2 ≤ c && c ≤ hi2 then
          match rest' with
          | [] => some (i, none)
          | d :: rest'' =>
            if contByte d then
              match rest'' with
              | [] => some (i, none)
              | e :: rest''' =>
                if contByte e then utf8Check rest''' (i + 4) else some (i, some 3)
            else some (i, some 2)
        else some (i, some 1)
      else some (i, some 1)

/-- Well-formed UTF-8 byte list (what the bytes of any Rust `String` are). -/
def utf8Valid (s : List Nat) : Bool :=
  (utf8Check s 0).isNone

/-- The `Display` text of Rust's `FromUtf8Error`, which `map_err(|err|
err.to_string())` turns into the client's error string. -/
def decodeErrMsg : Nat × Option Nat → List Nat
  | (i, some n) =>
    bytesOfAscii ("invalid utf-8 sequence of ") ++ bytesOfAscii (toString n) ++
      bytesOfAscii (" bytes from index ") ++ bytesOfAscii (toString i)
  | (i, none) =>
    bytesOfAscii ("incomplete utf-8 byte sequence from index ") ++
      bytesOfAscii (toString i)

/-- Model of `urlencoding::decode`: unescape, then UTF-8-validate the result; a
percent-free input is returned as-is without validation. -/
def urldecode (s : List Nat) : Except (List Nat) (List Nat) :=
  if s.all (fun b => b ≠ 37) then .ok s
  else
    match utf8Check (decodeBinary s) 0 with
    | none => .ok (decodeBinary s)
    | some e => .error (decodeErrMsg e)

/-! ## HTTP model

A request as the clients build one: method, URL (for `get`/`delete` the
base URL with the encoded key appended after a `/`), the query pairs
passed to `.query(..)` (raw, the transport serialises them), and for
`set` a body with its content type.  The oracle `net` answers each
request with either a transport error (covering the `send()` failure the
code maps through `err.to_string()`) or a response, abstracted to its
status code and body text. -/

inductive Method where
  | get
  | post
  | delete
deriving DecidableEq

structure Request where
  method : Method
  url : List Nat
  query : List (List Nat × List Nat)
  body : Option (List Nat)
  contentType : Option (List Nat)
deriving DecidableEq

inductive HttpResult where
  | transportError (msg : List Nat)
  | response (status : Nat) (body : List Nat)
deriving DecidableEq

/-- Model of `reqwest::StatusCode::is_success()`: `200 ≤ status ≤ 299`. -/
def isSuccess (status : Nat) : Bool :=
  200 ≤ status && status ≤ 299

/-! ## The requests each operation issues (identical in both clients,
except for the `set` body). -/

/-- Request of `get`: `GET {base}/{encode(key)}` (byte 47 is `/`). -/
def getReq (base key : List Nat) : Request :=
  ⟨.get, base ++ 47 :: urlencode key, [], none, none⟩

/-- Request of `delete`: `DELETE {base}/{encode(key)}`. -/
def deleteReq (base key : List Nat) : Request :=
  ⟨.delete, base ++ 47 :: urlencode key, [], none, none⟩

/-- Request of `list_prefix`: `GET {base}` with query `encode=true` and the raw
prefix. -/
def listPfxReq (base pfx : List Nat) : Request :=
  ⟨.get, base, [(bytesOfAscii ("encode"), bytesOfAscii ("true")),
                (bytesOfAscii ("prefix"), pfx)], none, none⟩

/-- The sync `set` body: `format!("{}={}", encode(key), encode(value))`
(byte 61 is `=`). -/
def syncSetBody (key value : List Nat) : List Nat :=
  urlencode key ++ 61 :: urlencode value

/-- The sync `set` request: `POST {base}` with the url-encoded body and
`Content-Type: application/x-www-form-urlencoded`. -/
def syncSetReq (base key value : List Nat) : Request :=
  ⟨.post, base, [], some (syncSetBody key value),
    some (bytesOfAscii ("application/x-www-form-urlencoded"))⟩

/-- The async `set` body: the HTTP library's serialisation of
`Form::new().text(key, value)` — a single multipart part whose field
name carries the key (escaped by the library's name escaping `nameEsc`)
and whose content is the RAW value.  The boundary the library picks and
its exact name escaping are external, so both are parameters; every part
the clients control is fixed.  Bytes 13 10 are `\r\n`, 34 is `"`,
45 is `-`. -/
def asyncSetBody (boundary : List Nat) (nameEsc : List Nat → List Nat)
    (key value : List Nat) : List Nat :=
  [45, 45] ++ boundary ++ [13, 10] ++
    bytesOfAscii ("Content-Disposition: form-data; name=") ++
    [34] ++ nameEsc key ++ [34] ++ [13, 10, 13, 10] ++
    value ++ [13, 10, 45, 45] ++ boundary ++ [45, 45, 13, 10]

/-! ## The operations (response handling identical in sync and async) -/

/-- Operation `get`: `Some(text)` on 2xx, `None` on 404, `Err(text)` otherwise;
`Err(msg)` on a transport error. -/
def clientGet (net : Request → HttpResult) (base key : List Nat) :
    Except (List Nat) (Option (List Nat)) :=
  match net (getReq base key) with
  | .transportError m => .error m
  | .response s body =>
    if isSuccess s then .ok (some body)
    else if s == 404 then .ok none
    else .error body

/-- Sync `set`: `Ok(())` on 2xx, `Err(text)` otherwise. -/
def clientSet (net : Request → HttpResult) (base key value : List Nat) :
    Except (List Nat) Unit :=
  match net (syncSetReq base key value) with
  | .transportError m => .error m
  | .response s body =>
    if isSuccess s then .ok () else .error body

/-- Operation `delete`: `Ok(())` on 2xx or 404, `Err(text)` otherwise. -/
def clientDelete (net : Request → HttpResult) (base key : List Nat) :
    Except (List Nat) Unit :=
  match net (deleteReq base key) with
  | .transportError m => .error m
  | .response s body =>
    if isSuccess s || s == 404 then .ok () else .error body

/-- Rust's `text.split("\n")` over bytes (byte 10 is `\n`): the empty
string yields `[""]`, and in general one piece more than there are
newlines. -/
def splitNl : List Nat → List (List Nat)
  | [] => [[]]
  | c :: rest =>
    if c = 10 then [] :: splitNl rest
    else
      match splitNl rest with
      | [] => [[c]]
      | l :: ls => (c :: l) :: ls

/-- Model of `collect::<Result<Vec<String>, String>>()` over the decoded lines:
all lines decoded in order, or the first decode failure. -/
def decodeLines : List (List Nat) → Except (List Nat) (List (List Nat))
  | [] => .ok []
  | l :: ls =>
    match urldecode l with
    | .error e => .error e
    | .ok d =>
      match decodeLines ls with
      | .error e => .error e
      | .ok ds => .ok (d :: ds)

/-- Operation `list_prefix`: on 2xx, split the body on `\n` and percent-decode each
line; `Err(text)` on any other status (404 included). -/
def clientListPfx (net : Request → HttpResult) (base pfx : List Nat) :
    Except (List Nat) (List (List Nat)) :=
  match net (listPfxReq base pfx) with
  | .transportError m => .error m
  | .response s body =>
    if isSuccess s then decodeLines (splitNl body) else .error body

/-- Operation `list`: `list_prefix("")`. -/
def clientList (net : Request → HttpResult) (base : List Nat) :
    Except (List Nat) (List (List Nat)) :=
  clientListPfx net base []

/-- The `for key in keys { self.delete(key)?; }` loop of `empty`,
returning the delete requests issued alongside the result: the first
failing delete aborts the loop. -/
def deleteLoop (net : Request → HttpResult) (base : List Nat) :
    List (List Nat) → List Request × Except (List Nat) Unit
  | [] => ([], .ok ())
  | k :: ks =>
    match clientDelete net base k with
    | .error e => ([deleteReq base k], .error e)
    | .ok () =>
      let r := deleteLoop net base ks
      (deleteReq base k :: r.1, r.2)

/-- Operation `empty`: `list()`, then delete every returned key in order.  The
first component is the trace of requests issued. -/
def clientEmpty (net : Request → HttpResult) (base : List Nat) :
    List Request × Except (List Nat) Unit :=
  match clientList net base with
  | .error e => ([listPfxReq base []], .error e)
  | .ok ks =>
    let r := deleteLoop net base ks
    (listPfxReq base [] :: r.1, r.2)

/-- Outcome of `get_all`: Rust's `value.unwrap()` on a `None` is a panic,
distinct from the `Err` the `?` operator propagates. -/
inductive GetAllResult where
  | panicked
  | failed (msg : List Nat)
  | ok (map : List (List Nat × List Nat))
deriving DecidableEq

/-- Model of `HashMap::insert`: replace the value at an existing key, else add the
entry. -/
def insertKV : List (List Nat × List Nat) → List Nat → List Nat →
    List (List Nat × List Nat)
  | [], k, v => [(k, v)]
  | (k', v') :: rest, k, v =>
    if k' = k then (k, v) :: rest else (k', v') :: insertKV rest k v

/-- Model of `HashMap::get`: the value stored at a key, if any. -/
def lookupKV : List (List Nat × List Nat) → List Nat → Option (List Nat)
  | [], _ => none
  | (k', v') :: rest, k => if k' = k then some v' else lookupKV rest k

/-- The `for key in keys` loop of `get_all`: `get` each key, `?` on an
error, `unwrap()` (panic) on `Ok(None)`, insert the value otherwise. -/
def getAllLoop (net : Request → HttpResult) (base : List Nat) :
    List (List Nat) → List (List Nat × List Nat) → GetAllResult
  | [], out => .ok out
  | k :: ks, out =>
    match clientGet net base k with
    | .error e => .failed e
    | .ok none => .panicked
    | .ok (some v) => getAllLoop net base ks (insertKV out k v)

/-- Operation `get_all`: `list()`, then `get` every returned key in order into a
map. -/
def clientGetAll (net : Request → HttpResult) (base : List Nat) :
    GetAllResult :=
  match clientList net base with
  | .error e => .failed e
  | .ok ks => getAllLoop net base ks []

/-! ## Codec lemmas -/

/-- Hex digits emitted by `toHexDigit` decode back to the nibble. -/
theorem fromHexDigit_toHexDigit (n : Nat) (h : n < 16) :
    fromHexDigit (toHexDigit n) = some n := by
  interval_cases n <;> decide

/-- Hex digits are unreserved bytes (alphanumerics). -/
theorem isUnreservedByte_toHexDigit (n : Nat) (h : n < 16) :
    isUnreservedByte (toHexDigit n) = true := by
  interval_cases n <;> decide

/-- Every byte of a percent-encoded string is `%` or unreserved. -/
theorem mem_urlencode (s : List Nat) (b : Nat) (hb : b ∈ urlencode s) :
    b = 37 ∨ isUnreservedByte b = true := by
  unfold urlencode at hb
  rw [List.mem_flatMap] at hb
  obtain ⟨a, _, hmem⟩ := hb
  unfold encodeByte at hmem
  by_cases ha : isUnreservedByte a = true
  · rw [if_pos ha] at hmem
    rw [List.mem_singleton] at hmem
    subst hmem
    right
    exact ha
  · rw [if_neg ha] at hmem
    simp only [List.mem_cons, List.not_mem_nil, or_false] at hmem
    rcases hmem with h | h | h
    · left
      exact h
    · right
      rw [h]
      exact isUnreservedByte_toHexDigit _ (Nat.mod_lt _ (by omega))
    · right
      rw [h]
      exact isUnreservedByte_toHexDigit _ (Nat.mod_lt _ (by omega))

/-- A string of unreserved bytes percent-encodes to itself. -/
theorem urlencode_eq_self (s : List Nat)
    (h : ∀ b ∈ s, isUnreservedByte b = true) : urlencode s = s := by
  induction s with
  | nil => rfl
  | cons b rest ih =>
    have hb := h b (List.mem_cons_self b rest)
    unfold urlencode at ih ⊢
    simp only [List.flatMap_cons]
    rw [ih fun x hx => h x (List.mem_cons_of_mem b hx)]
    unfold encodeByte
    simp [hb]

/-- Exhausted input decodes to nothing at any fuel. -/
theorem decodeBinaryGo_nil (f : Nat) : decodeBinaryGo f [] = [] := by
  cases f <;> rfl

/-- Unescaping one encoded byte recovers it in one iteration. -/
theorem decodeBinaryGo_encodeByte (b : Nat) (hb : b < 256) (f : Nat)
    (t : List Nat) :
    decodeBinaryGo (f + 1) (encodeByte b ++ t) = b :: decodeBinaryGo f t := by
  unfold encodeByte
  by_cases hu : isUnreservedByte b = true
  · have h37 : b ≠ 37 := by
      intro h
      rw [h] at hu
      simp [isUnreservedByte] at hu
    simp only [hu, if_true, List.cons_append, List.nil_append]
    simp only [decodeBinaryGo]
    rw [if_neg h37]
  · simp only [hu, if_false, List.cons_append, List.nil_append]
    simp only [decodeBinaryGo, List.append_eq, List.cons_append, List.nil_append,
      if_true]
    rw [fromHexDigit_toHexDigit _ (Nat.mod_lt _ (by omega)),
      fromHexDigit_toHexDigit _ (Nat.mod_lt _ (by omega))]
    show (b / 16 % 16 * 16 + b % 16) :: decodeBinaryGo f t = b :: decodeBinaryGo f t
    congr 1
    omega

/-- Unescaping a whole percent-encoded string recovers it, one fuel per
source byte. -/
theorem decodeBinaryGo_urlencode (s : List Nat) (hb : ∀ b ∈ s, b < 256) :
    ∀ (f : Nat) (t : List Nat),
      decodeBinaryGo (s.length + f) (urlencode s ++ t) =
        s ++ decodeBinaryGo f t := by
  induction s with
  | nil =>
    intro f t
    simp [urlencode]
  | cons b rest ih =>
    intro f t
    unfold urlencode
    simp only [List.flatMap_cons, List.append_assoc, List.length_cons]
    have hcomm : rest.length + 1 + f = rest.length + f + 1 := by omega
    rw [hcomm, decodeBinaryGo_encodeByte b (hb b (List.mem_cons_self b rest)) _ _]
    unfold urlencode at ih
    rw [ih (fun x hx => hb x (List.mem_cons_of_mem b hx)) f t]
    rfl

/-- Percent-encoding never shrinks a string. -/
theorem length_le_urlencode (s : List Nat) : s.length ≤ (urlencode s).length := by
  induction s with
  | nil => simp [urlencode]
  | cons b rest ih =>
    unfold urlencode at ih ⊢
    simp only [List.flatMap_cons, List.length_append, List.length_cons]
    have h1 : 1 ≤ (encodeByte b).length := by
      unfold encodeByte
      by_cases h : isUnreservedByte b = true <;> simp [h]
    omega

/-- The unescaping pass inverts percent-encoding. -/
theorem decodeBinary_urlencode (s : List Nat) (hb : ∀ b ∈ s, b < 256) :
    decodeBinary (urlencode s) = s := by
  unfold decodeBinary
  have hf : (urlencode s).length = s.length + ((urlencode s).length - s.length) := by
    have h := length_le_urlencode s
    omega
  rw [hf]
  have h := decodeBinaryGo_urlencode s hb ((urlencode s).length - s.length) []
  simp only [List.append_nil] at h
  rw [h, decodeBinaryGo_nil, List.append_nil]

/-- Claim C9: For every key whose bytes come from a Rust string (valid
UTF-8, bytes below 256), decoding the percent-encoding of the key gives
the key back exactly — the codec round-trip law of the clients. -/
theorem urlencode_roundtrip (key : List Nat) (hb : ∀ b ∈ key, b < 256)
    (hv : utf8Valid key = true) : urldecode (urlencode key) = .ok key := by
  have hd : decodeBinary (urlencode key) = key := decodeBinary_urlencode key hb
  have hv' : utf8Check key 0 = none := by
    unfold utf8Valid at hv
    exact Option.isNone_iff_eq_none.mp hv
  unfold urldecode
  by_cases hall : ((urlencode key).all fun b => decide (b ≠ 37)) = true
  · rw [if_pos hall]
    congr 1
    apply urlencode_eq_self
    intro b hbm
    by_contra hnu
    have h37 : (37 : Nat) ∈ urlencode key := by
      unfold urlencode
      rw [List.mem_flatMap]
      exact ⟨b, hbm, by simp [encodeByte, hnu]⟩
    rw [List.all_eq_true] at hall
    have hc := hall 37 h37
    simp at hc
  · rw [if_neg hall, hd, hv']

/-- Witness for C9 at the key `a/b?% c` (slash, question mark, percent,
space all present). -/
theorem urlencode_roundtrip_witness :
    ((∀ b ∈ bytesOfAscii ("a/b?% c"), b < 256) ∧
      utf8Valid (bytesOfAscii ("a/b?% c")) = true) ∧
      urldecode (urlencode (bytesOfAscii ("a/b?% c"))) =
        .ok (bytesOfAscii ("a/b?% c")) :=
  ⟨⟨by decide, by decide⟩, urlencode_roundtrip _ (by decide) (by decide)⟩

/-! ## Response handling of the primitive operations

`get`, `delete` and the error paths below are textually identical in
`sync_client.rs` and `async_client.rs`, so each theorem covers both
clients. -/

/-- Claim C3: `get(key)` issues `GET {base}/{encode(key)}` (the request
`getReq base key`) and maps the response: `Ok(Some(body))` on a 2xx
status, `Ok(None)` on exactly 404 (the absent-key result), `Err(body)`
on any other status, and `Err(msg)` on a transport failure. -/
theorem get_spec (net : Request → HttpResult) (base key : List Nat) :
    (∀ s body, net (getReq base key) = .response s body →
      clientGet net base key =
        (if 200 ≤ s ∧ s ≤ 299 then .ok (some body)
         else if s = 404 then .ok none
         else .error body)) ∧
    (∀ m, net (getReq base key) = .transportError m →
      clientGet net base key = .error m) := by
  constructor
  · intro s body h
    unfold clientGet isSuccess
    rw [h]
    simp only [Bool.and_eq_true, decide_eq_true_eq, beq_iff_eq]
  · intro m h
    unfold clientGet
    rw [h]

/-- C3 witness: a 200 response with body `v` yields `Ok(Some v)`. -/
theorem get_spec_witness :
    clientGet (fun _ => .response 200 (bytesOfAscii ("v")))
      (bytesOfAscii ("http://db")) (bytesOfAscii ("k")) =
      .ok (some (bytesOfAscii ("v"))) := by
  have h := (get_spec (fun _ => .response 200 (bytesOfAscii ("v")))
    (bytesOfAscii ("http://db")) (bytesOfAscii ("k"))).1 200 (bytesOfAscii ("v")) rfl
  simpa using h

/-- Claim C5: `delete(key)` issues `DELETE {base}/{encode(key)}` and
returns `Ok(())` on a 2xx status or exactly 404 — deleting an absent key
succeeds, so delete is idempotent — and `Err(body)` on any other status;
a transport failure yields `Err(msg)`. -/
theorem delete_spec (net : Request → HttpResult) (base key : List Nat) :
    (∀ s body, net (deleteReq base key) = .response s body →
      clientDelete net base key =
        (if (200 ≤ s ∧ s ≤ 299) ∨ s = 404 then .ok () else .error body)) ∧
    (∀ m, net (deleteReq base key) = .transportError m →
      clientDelete net base key = .error m) := by
  constructor
  · intro s body h
    unfold clientDelete isSuccess
    rw [h]
    simp only [Bool.or_eq_true, Bool.and_eq_true, decide_eq_true_eq, beq_iff_eq]
  · intro m h
    unfold clientDelete
    rw [h]

/-- C5 witness: a 404 response yields `Ok(())`. -/
theorem delete_spec_witness :
    clientDelete (fun _ => .response 404 (bytesOfAscii ("not found")))
      (bytesOfAscii ("http://db")) (bytesOfAscii ("gone")) = .ok () := by
  have h := (delete_spec (fun _ => .response 404 (bytesOfAscii ("not found")))
    (bytesOfAscii ("http://db")) (bytesOfAscii ("gone"))).1 404
    (bytesOfAscii ("not found")) rfl
  simpa using h

/-- Claim C8: A response with any non-2xx status other than 404 (HTTP 500
for instance) and body `boom` makes every primitive operation (`get`,
`set`, `delete`, `list_prefix`) return an error whose message is exactly
`boom` — the response body verbatim, with no wrapping or annotation. -/
theorem remote_error_boom (s : Nat) (hs : ¬(200 ≤ s ∧ s ≤ 299))
    (h404 : s ≠ 404) :
    clientGet (fun _ => .response s (bytesOfAscii ("boom")))
        (bytesOfAscii ("http://db")) (bytesOfAscii ("k")) =
      .error (bytesOfAscii ("boom")) ∧
    clientSet (fun _ => .response s (bytesOfAscii ("boom")))
        (bytesOfAscii ("http://db")) (bytesOfAscii ("k")) (bytesOfAscii ("w")) =
      .error (bytesOfAscii ("boom")) ∧
    clientDelete (fun _ => .response s (bytesOfAscii ("boom")))
        (bytesOfAscii ("http://db")) (bytesOfAscii ("k")) =
      .error (bytesOfAscii ("boom")) ∧
    clientListPfx (fun _ => .response s (bytesOfAscii ("boom")))
        (bytesOfAscii ("http://db")) (bytesOfAscii ("a")) =
      .error (bytesOfAscii ("boom")) := by
  have h1 : isSuccess s = false := by
    have hn : ¬(isSuccess s = true) := by
      intro hc
      unfold isSuccess at hc
      exact hs (by simpa using hc)
    rw [Bool.not_eq_true] at hn
    exact hn
  have h2 : (s == 404) = false := by
    rw [beq_eq_false_iff_ne]
    exact h404
  refine ⟨?_, ?_, ?_, ?_⟩ <;>
    simp [clientGet, clientSet, clientDelete, clientListPfx, h1, h2]

/-- C8 witness at HTTP 500, the status of the spec's simulated remote
error. -/
theorem remote_error_boom_witness :
    clientGet (fun _ => .response 500 (bytesOfAscii ("boom")))
        (bytesOfAscii ("http://db")) (bytesOfAscii ("k")) =
      .error (bytesOfAscii ("boom")) :=
  (remote_error_boom 500 (by omega) (by omega)).1

/-! ## Listing lemmas -/

/-- Splitting never yields the empty list of pieces. -/
theorem splitNl_ne_nil (s : List Nat) : splitNl s ≠ [] := by
  cases s with
  | nil => simp [splitNl]
  | cons c rest =>
    simp only [splitNl]
    by_cases hc : c = 10
    · rw [if_pos hc]
      simp
    · rw [if_neg hc]
      cases splitNl rest <;> simp

/-- Splitting yields one piece more than there are newline bytes. -/
theorem splitNl_length (s : List Nat) :
    (splitNl s).length = s.count 10 + 1 := by
  induction s with
  | nil => simp [splitNl]
  | cons c rest ih =>
    simp only [splitNl]
    by_cases hc : c = 10
    · rw [if_pos hc]
      subst hc
      simp [List.count_cons, ih]
    · rw [if_neg hc]
      cases h : splitNl rest with
      | nil => exact absurd h (splitNl_ne_nil rest)
      | cons l ls =>
        rw [h] at ih
        simp only [List.length_cons] at ih ⊢
        simp [List.count_cons, hc]
        omega

/-- When every line decodes, `collect` returns all decoded lines in
order. -/
theorem decodeLines_ok (ls : List (List Nat))
    (h : ∀ l ∈ ls, ∃ d, urldecode l = .ok d) :
    decodeLines ls = .ok (ls.map fun l => (urldecode l).toOption.getD []) := by
  induction ls with
  | nil => rfl
  | cons l rest ih =>
    obtain ⟨d, hd⟩ := h l (List.mem_cons_self l rest)
    have hih := ih fun x hx => h x (List.mem_cons_of_mem l hx)
    simp [decodeLines, hd, hih, Except.toOption]

/-- The first line that fails to decode aborts `collect` with its
error. -/
theorem decodeLines_err (l : List Nat) (e : List Nat) (ls2 : List (List Nat))
    (he : urldecode l = .error e) :
    ∀ ls1 : List (List Nat), (∀ x ∈ ls1, ∃ d, urldecode x = .ok d) →
      decodeLines (ls1 ++ l :: ls2) = .error e := by
  intro ls1
  induction ls1 with
  | nil =>
    intro _
    simp only [List.nil_append, decodeLines]
    rw [he]
  | cons a rest ih =>
    intro h
    obtain ⟨d, hd⟩ := h a (List.mem_cons_self a rest)
    have hih := ih fun x hx => h x (List.mem_cons_of_mem a hx)
    simp only [List.cons_append, decodeLines, hd, List.append_eq, hih]

/-- Successful `collect` preserves the number of lines. -/
theorem decodeLines_length (ls : List (List Nat)) (ds : List (List Nat))
    (h : decodeLines ls = .ok ds) : ds.length = ls.length := by
  induction ls generalizing ds with
  | nil =>
    simp only [decodeLines] at h
    cases h
    rfl
  | cons l rest ih =>
    simp only [decodeLines] at h
    cases hl : urldecode l with
    | error e =>
      rw [hl] at h
      cases h
    | ok d =>
      rw [hl] at h
      cases hr : decodeLines rest with
      | error e =>
        rw [hr] at h
        cases h
      | ok ds' =>
        rw [hr] at h
        cases h
        simp [ih ds' hr]

/-- Claim C4: On a 2xx listing response, `list_prefix` returns exactly the
body split on newline with every line percent-decoded, in split order;
the first line that fails decoding turns the whole call into `Err` with
that decode error's message; a non-2xx status returns `Err` with the
response body. -/
theorem listPfx_spec (net : Request → HttpResult) (base pfx : List Nat) :
    (∀ s body, net (listPfxReq base pfx) = .response s body →
      200 ≤ s ∧ s ≤ 299 →
      ((∀ l ∈ splitNl body, ∃ d, urldecode l = .ok d) →
        clientListPfx net base pfx =
          .ok ((splitNl body).map fun l => (urldecode l).toOption.getD [])) ∧
      (∀ ls1 l ls2 e, splitNl body = ls1 ++ l :: ls2 →
        (∀ x ∈ ls1, ∃ d, urldecode x = .ok d) → urldecode l = .error e →
        clientListPfx net base pfx = .error e)) ∧
    (∀ s body, net (listPfxReq base pfx) = .response s body →
      ¬(200 ≤ s ∧ s ≤ 299) →
      clientListPfx net base pfx = .error body) := by
  constructor
  · intro s body hresp hs
    have h2 : isSuccess s = true := by
      unfold isSuccess
      simp only [Bool.and_eq_true, decide_eq_true_eq]
      exact hs
    constructor
    · intro hall
      unfold clientListPfx
      rw [hresp]
      simp only [h2, if_true]
      exact decodeLines_ok _ hall
    · intro ls1 l ls2 e hsplit hok he
      unfold clientListPfx
      rw [hresp]
      simp only [h2, if_true]
      rw [hsplit]
      exact decodeLines_err l e ls2 he ls1 hok
  · intro s body hresp hs
    have h2 : ¬((200 ≤ s && s ≤ 299) = true) := by
      simp only [Bool.and_eq_true, decide_eq_true_eq]
      exact hs
    unfold clientListPfx isSuccess
    rw [hresp]
    simp [h2]

/-- C4 witness: a 200 response whose body is `a%2F1` then a newline then
`b` lists the two decoded keys in order. -/
theorem listPfx_spec_witness :
    clientListPfx (fun _ => .response 200 (bytesOfAscii ("a%2F1\nb")))
      (bytesOfAscii ("http://db")) (bytesOfAscii ("a")) =
      .ok [bytesOfAscii ("a/1"), bytesOfAscii ("b")] := by
  have hmain := ((listPfx_spec (fun _ => .response 200 (bytesOfAscii ("a%2F1\nb")))
    (bytesOfAscii ("http://db")) (bytesOfAscii ("a"))).1 200
    (bytesOfAscii ("a%2F1\nb")) rfl (by omega)).1
  have hall : ∀ l ∈ splitNl (bytesOfAscii ("a%2F1\nb")), ∃ d, urldecode l = .ok d := by
    intro l hl
    refine ⟨(urldecode l).toOption.getD [], ?_⟩
    revert hl
    revert l
    decide
  exact (hmain hall).trans (congrArg Except.ok (by decide))

/-- Claim C7: A successful listing always has exactly one more element
than the body has newline bytes — in particular it is never empty, and
the empty body (empty database) yields the one-element listing
containing the empty string.  `list()` is exactly `list_prefix("")`. -/
theorem listing_never_empty (net : Request → HttpResult) (base pfx : List Nat) :
    (∀ s body ks, net (listPfxReq base pfx) = .response s body →
      clientListPfx net base pfx = .ok ks →
      ks.length = body.count 10 + 1 ∧ ks ≠ []) ∧
    (∀ s, net (listPfxReq base pfx) = .response s [] → 200 ≤ s ∧ s ≤ 299 →
      clientListPfx net base pfx = .ok [[]]) ∧
    clientList net base = clientListPfx net base [] := by
  refine ⟨?_, ?_, rfl⟩
  · intro s body ks hresp hok
    unfold clientListPfx at hok
    rw [hresp] at hok
    by_cases h2 : isSuccess s = true
    · simp only [h2, if_true] at hok
      have hlen := decodeLines_length _ _ hok
      rw [splitNl_length] at hlen
      refine ⟨hlen, ?_⟩
      intro hnil
      rw [hnil] at hlen
      simp at hlen
    · rw [Bool.not_eq_true] at h2
      simp [h2] at hok
  · intro s hresp hs
    have h2 : isSuccess s = true := by
      unfold isSuccess
      simp only [Bool.and_eq_true, decide_eq_true_eq]
      exact hs
    unfold clientListPfx
    rw [hresp]
    simp only [h2, if_true]
    rfl

/-- C7 witness: an empty 200 body lists exactly one empty-string key. -/
theorem listing_never_empty_witness :
    clientListPfx (fun _ => .response 200 []) (bytesOfAscii ("http://db")) [] =
      .ok [[]] :=
  ((listing_never_empty (fun _ => .response 200 [])
    (bytesOfAscii ("http://db")) []).2.1 200 rfl (by omega))

/-! ## The `set` encoding divergence (C2) and the injectivity of the
sync body (C10) -/

/-- Claim C2: The sync `set` percent-encodes both key and value into the
single url-encoded body field `encode(key)=encode(value)` under
`Content-Type: application/x-www-form-urlencoded`, while the async `set`
puts only the (escaped) key into a multipart field name and ships the
value raw — so whatever boundary the HTTP library picks and whatever
escaping `nameEsc` it applies to the field name, the two variants put
different bytes on the wire already for the key `k` with value `=`. -/
theorem set_encoding_divergence (boundary : List Nat)
    (nameEsc : List Nat → List Nat) :
    (syncSetReq (bytesOfAscii ("http://db")) (bytesOfAscii ("k"))
        (bytesOfAscii ("="))).contentType =
      some (bytesOfAscii ("application/x-www-form-urlencoded")) ∧
    asyncSetBody boundary nameEsc (bytesOfAscii ("k")) (bytesOfAscii ("=")) ≠
      syncSetBody (bytesOfAscii ("k")) (bytesOfAscii ("=")) := by
  constructor
  · rfl
  · intro h
    have hlen := congrArg List.length h
    have hsync : (syncSetBody (bytesOfAscii ("k")) (bytesOfAscii ("="))).length = 5 := by
      decide
    have hcd : (bytesOfAscii ("Content-Disposition: form-data; name=")).length = 37 := by
      decide
    unfold asyncSetBody at hlen
    simp only [List.length_append, List.length_cons, List.length_nil, hcd,
      hsync] at hlen
    omega

/-- C2 witness: at boundary `X` and identity name escaping the two
bodies differ. -/
theorem set_encoding_divergence_witness :
    asyncSetBody (bytesOfAscii ("X")) (fun s => s) (bytesOfAscii ("k"))
        (bytesOfAscii ("=")) ≠
      syncSetBody (bytesOfAscii ("k")) (bytesOfAscii ("=")) :=
  (set_encoding_divergence (bytesOfAscii ("X")) (fun s => s)).2

/-- Percent-encoded output never contains a raw `=` (byte 61): `=` is
not unreserved, and escapes consist of `%` and hex digits. -/
theorem not_mem61_urlencode (s : List Nat) : (61 : Nat) ∉ urlencode s := by
  intro h
  rcases mem_urlencode s 61 h with h37 | hun
  · cases h37
  · simp [isUnreservedByte] at hun

/-- Splitting at a separator absent from both left parts is unambiguous. -/
theorem append_sep_inj (sep : Nat) :
    ∀ (a c b d : List Nat), sep ∉ a → sep ∉ c →
      a ++ sep :: b = c ++ sep :: d → a = c ∧ b = d := by
  intro a
  induction a with
  | nil =>
    intro c b d _ hc h
    cases c with
    | nil =>
      simp only [List.nil_append] at h
      cases h
      exact ⟨rfl, rfl⟩
    | cons y c' =>
      simp only [List.nil_append, List.cons_append] at h
      cases h
      exact absurd (List.mem_cons_self _ _) hc
  | cons x a' ih =>
    intro c b d ha hc h
    cases c with
    | nil =>
      simp only [List.cons_append, List.nil_append] at h
      cases h
      exact absurd (List.mem_cons_self _ _) ha
    | cons y c' =>
      simp only [List.cons_append, List.cons.injEq] at h
      obtain ⟨hxy, hrest⟩ := h
      have ha' : sep ∉ a' := fun hm => ha (List.mem_cons_of_mem _ hm)
      have hc' : sep ∉ c' := fun hm => hc (List.mem_cons_of_mem _ hm)
      obtain ⟨h1, h2⟩ := ih c' b d ha' hc' hrest
      exact ⟨by rw [hxy, h1], h2⟩

/-- Percent-encoding is injective on byte strings (it is inverted by the
unescaping pass). -/
theorem urlencode_inj (s t : List Nat) (hs : ∀ b ∈ s, b < 256)
    (ht : ∀ b ∈ t, b < 256) (h : urlencode s = urlencode t) : s = t := by
  have h1 := decodeBinary_urlencode s hs
  have h2 := decodeBinary_urlencode t ht
  rw [← h1, ← h2, h]

/-- Claim C10: The sync `set` body `encode(key)=encode(value)` determines
key and value uniquely: since percent-encoding escapes `=` (and `&`),
the single `=` separator is unambiguous even when keys or values contain
`=`, `&` or newlines, and the encoded halves pin down the originals. -/
theorem syncSetBody_inj (k1 v1 k2 v2 : List Nat)
    (hk1 : ∀ b ∈ k1, b < 256) (hv1 : ∀ b ∈ v1, b < 256)
    (hk2 : ∀ b ∈ k2, b < 256) (hv2 : ∀ b ∈ v2, b < 256)
    (h : syncSetBody k1 v1 = syncSetBody k2 v2) : k1 = k2 ∧ v1 = v2 := by
  unfold syncSetBody at h
  obtain ⟨hk, hv⟩ := append_sep_inj 61 (urlencode k1) (urlencode k2)
    (urlencode v1) (urlencode v2) (not_mem61_urlencode k1)
    (not_mem61_urlencode k2) h
  exact ⟨urlencode_inj k1 k2 hk1 hk2 hk, urlencode_inj v1 v2 hv1 hv2 hv⟩

/-- C10 witness at a key containing `=` and a value containing `&` and a
newline. -/
theorem syncSetBody_inj_witness :
    bytesOfAscii ("a=b") = bytesOfAscii ("a=b") ∧
      bytesOfAscii ("c&d\ne") = bytesOfAscii ("c&d\ne") :=
  syncSetBody_inj (bytesOfAscii ("a=b")) (bytesOfAscii ("c&d\ne"))
    (bytesOfAscii ("a=b")) (bytesOfAscii ("c&d\ne"))
    (by decide) (by decide) (by decide) (by decide) rfl

/-! ## The composite operations (C6 `empty`, C1 `get_all`) -/

/-- When every delete answers 2xx/404 the loop issues one delete request
per key, in order, and succeeds. -/
theorem deleteLoop_ok (net : Request → HttpResult) (base : List Nat) :
    ∀ ks : List (List Nat), (∀ k ∈ ks, clientDelete net base k = .ok ()) →
      deleteLoop net base ks = (ks.map (deleteReq base), .ok ()) := by
  intro ks
  induction ks with
  | nil => intro _; rfl
  | cons k rest ih =>
    intro h
    have hk := h k (List.mem_cons_self k rest)
    have hih := ih fun x hx => h x (List.mem_cons_of_mem k hx)
    simp only [deleteLoop, hk, hih, List.map_cons]

/-- The first failing delete aborts the loop: the requests already
issued stay issued (no rollback requests follow), the keys after the
failure are never touched, and the error comes out unchanged. -/
theorem deleteLoop_err (net : Request → HttpResult) (base : List Nat)
    (k e : List Nat) (ks2 : List (List Nat))
    (hk : clientDelete net base k = .error e) :
    ∀ ks1 : List (List Nat), (∀ x ∈ ks1, clientDelete net base x = .ok ()) →
      deleteLoop net base (ks1 ++ k :: ks2) =
        ((ks1 ++ [k]).map (deleteReq base), .error e) := by
  intro ks1
  induction ks1 with
  | nil =>
    intro _
    simp only [List.nil_append, deleteLoop, hk, List.map_cons, List.map_nil]
  | cons a rest ih =>
    intro h
    have ha := h a (List.mem_cons_self a rest)
    have hih := ih fun x hx => h x (List.mem_cons_of_mem a hx)
    simp only [List.cons_append, deleteLoop, ha, List.append_eq, hih, List.map_cons]

/-- Claim C6: `empty()` issues the listing request and then one delete per
returned key, sequentially in listing order: if the listing fails its
error is returned with no delete ever issued; if every delete succeeds
the result is `Ok(())` after exactly the deletes for all keys; and the
first failing delete stops the loop — the trace shows the deletes
already performed (not rolled back, no compensating requests) and none
for the keys after the failure, with the delete's error returned
unchanged. -/
theorem empty_spec (net : Request → HttpResult) (base : List Nat) :
    (∀ e, clientList net base = .error e →
      clientEmpty net base = ([listPfxReq base []], .error e)) ∧
    (∀ ks, clientList net base = .ok ks →
      (∀ k ∈ ks, clientDelete net base k = .ok ()) →
      clientEmpty net base =
        (listPfxReq base [] :: ks.map (deleteReq base), .ok ())) ∧
    (∀ ks1 k ks2 e, clientList net base = .ok (ks1 ++ k :: ks2) →
      (∀ x ∈ ks1, clientDelete net base x = .ok ()) →
      clientDelete net base k = .error e →
      clientEmpty net base =
        (listPfxReq base [] :: (ks1 ++ [k]).map (deleteReq base), .error e)) := by
  refine ⟨?_, ?_, ?_⟩
  · intro e hlist
    unfold clientEmpty
    rw [hlist]
  · intro ks hlist hdel
    unfold clientEmpty
    rw [hlist]
    simp only [deleteLoop_ok net base ks hdel]
  · intro ks1 k ks2 e hlist hok hfail
    unfold clientEmpty
    rw [hlist]
    simp only [deleteLoop_err net base k e ks2 hfail ks1 hok]

/-- Network used by the C6 witness: a two-key listing, every delete
answered 200. -/
def netEmptyW : Request → HttpResult := fun r =>
  if r.query = [] then .response 200 []
  else .response 200 (bytesOfAscii ("k1\nk2"))

/-- C6 witness: both keys deleted in order, then success. -/
theorem empty_spec_witness :
    clientEmpty netEmptyW (bytesOfAscii ("http://db")) =
      (listPfxReq (bytesOfAscii ("http://db")) [] ::
        [bytesOfAscii ("k1"), bytesOfAscii ("k2")].map
          (deleteReq (bytesOfAscii ("http://db"))), .ok ()) :=
  (empty_spec netEmptyW (bytesOfAscii ("http://db"))).2.1
    [bytesOfAscii ("k1"), bytesOfAscii ("k2")] (by decide) (by decide)

/-- The body a successful `get` returns for a key (the value `unwrap`
exposes), as a total function of the oracle. -/
def getVal (net : Request → HttpResult) (base k : List Nat) : List Nat :=
  match clientGet net base k with
  | .ok (some v) => v
  | _ => []

/-- Reading `HashMap::get` after `HashMap::insert`: the inserted key reads back
the new value, any other key is untouched. -/
theorem lookupKV_insertKV (m : List (List Nat × List Nat)) (kk v k : List Nat) :
    lookupKV (insertKV m kk v) k = if kk = k then some v else lookupKV m k := by
  induction m with
  | nil => simp [insertKV, lookupKV]
  | cons p rest ih =>
    obtain ⟨k', v'⟩ := p
    by_cases h1 : k' = kk <;> by_cases h2 : kk = k <;>
      simp_all [insertKV, lookupKV, ih]

/-- Folding inserts of `f k` for every key of `ks` over a map: keys of
`ks` read back `f`, others read the original map. -/
theorem lookupKV_foldl_insert (f : List Nat → List Nat) :
    ∀ (ks : List (List Nat)) (out : List (List Nat × List Nat)) (k : List Nat),
      lookupKV (ks.foldl (fun m x => insertKV m x (f x)) out) k =
        if k ∈ ks then some (f k) else lookupKV out k := by
  intro ks
  induction ks with
  | nil => simp
  | cons k0 rest ih =>
    intro out k
    simp only [List.foldl_cons, ih, List.mem_cons]
    by_cases hk : k ∈ rest
    · rw [if_pos hk, if_pos (Or.inr hk)]
    · rw [if_neg hk, lookupKV_insertKV]
      by_cases h0 : k = k0
      · rw [if_pos (Or.inl h0), if_pos h0.symm, h0]
      · have : k0 ≠ k := fun h => h0 h.symm
        rw [if_neg this, if_neg ?_]
        intro hor
        rcases hor with h | h
        · exact h0 h
        · exact hk h

/-- When every key's `get` answers `Ok(Some _)`, the loop of `get_all`
folds the values into the map and succeeds. -/
theorem getAllLoop_ok (net : Request → HttpResult) (base : List Nat) :
    ∀ ks : List (List Nat),
      (∀ k ∈ ks, clientGet net base k = .ok (some (getVal net base k))) →
      ∀ out, getAllLoop net base ks out =
        .ok (ks.foldl (fun m k => insertKV m k (getVal net base k)) out) := by
  intro ks
  induction ks with
  | nil => intro _ out; rfl
  | cons k rest ih =>
    intro h out
    have hk := h k (List.mem_cons_self k rest)
    have hih := ih fun x hx => h x (List.mem_cons_of_mem k hx)
    simp only [getAllLoop, hk, hih, List.foldl_cons]

/-- The first `Ok(None)` (key vanished between `list` and `get`) panics
the loop of `get_all` via `unwrap`. -/
theorem getAllLoop_panic (net : Request → HttpResult) (base k : List Nat)
    (ks2 : List (List Nat)) (hk : clientGet net base k = .ok none) :
    ∀ ks1 : List (List Nat),
      (∀ x ∈ ks1, clientGet net base x = .ok (some (getVal net base x))) →
      ∀ out, getAllLoop net base (ks1 ++ k :: ks2) out = .panicked := by
  intro ks1
  induction ks1 with
  | nil =>
    intro _ out
    simp only [List.nil_append, getAllLoop, hk]
  | cons a rest ih =>
    intro h out
    have ha := h a (List.mem_cons_self a rest)
    have hih := ih fun x hx => h x (List.mem_cons_of_mem a hx)
    simp only [List.cons_append, getAllLoop, ha, List.append_eq, hih]

/-- Claim C1: When every key returned by `list()` is still present (each
subsequent `get` answers `Ok(Some _)`), `get_all` returns `Ok` of the
map sending each listed key to the body its `get` returned and nothing
else; but if the gets reach a key whose `get` answers `Ok(None)` (the
key vanished between `list` and `get`), the `unwrap` panics — a fatal
outcome distinct from every propagated `Err`. -/
theorem getAll_spec (net : Request → HttpResult) (base : List Nat) :
    (∀ ks, clientList net base = .ok ks →
      (∀ k ∈ ks, clientGet net base k = .ok (some (getVal net base k))) →
      ∃ m, clientGetAll net base = .ok m ∧
        ∀ k, lookupKV m k =
          if k ∈ ks then some (getVal net base k) else none) ∧
    (∀ ks1 k ks2, clientList net base = .ok (ks1 ++ k :: ks2) →
      (∀ x ∈ ks1, clientGet net base x = .ok (some (getVal net base x))) →
      clientGet net base k = .ok none →
      clientGetAll net base = .panicked) := by
  constructor
  · intro ks hlist hall
    refine ⟨ks.foldl (fun m k => insertKV m k (getVal net base k)) [], ?_, ?_⟩
    · unfold clientGetAll
      rw [hlist]
      exact getAllLoop_ok net base ks hall []
    · intro k
      rw [lookupKV_foldl_insert (getVal net base) ks [] k]
      rfl
  · intro ks1 k ks2 hlist hok hnone
    unfold clientGetAll
    rw [hlist]
    exact getAllLoop_panic net base k ks2 hnone ks1 hok []

/-- Network used by the C1 witness: a two-key listing and a present
value for each key. -/
def netGetAllW : Request → HttpResult := fun r =>
  if r.query ≠ [] then .response 200 (bytesOfAscii ("k1\nk2"))
  else if r.url = bytesOfAscii ("http://db/k1") then
    .response 200 (bytesOfAscii ("v1"))
  else .response 200 (bytesOfAscii ("v2"))

/-- C1 witness: with both keys present, `get_all` succeeds with the map
of both bodies. -/
theorem getAll_spec_witness :
    ∃ m, clientGetAll netGetAllW (bytesOfAscii ("http://db")) = .ok m ∧
      ∀ k, lookupKV m k =
        if k ∈ [bytesOfAscii ("k1"), bytesOfAscii ("k2")] then
          some (getVal netGetAllW (bytesOfAscii ("http://db")) k)
        else none :=
  (getAll_spec netGetAllW (bytesOfAscii ("http://db"))).1
    [bytesOfAscii ("k1"), bytesOfAscii ("k2")] (by decide) (by decide)
